import Mathlib

/-!
Shallow embedding of the numeric functions of `mathrs` (`src/lib.rs`).

Finite `f64` values are idealized as exact reals; where the code's observable
behavior involves the IEEE-754 special values (the infinities returned by
`tan` at its asymptote checks, the NaN produced by `f64::sqrt` on negative
input, NaN-handling of `relu`'s comparison), results live in the `FP` type
below.  The platform trigonometric primitives (`f64::sin`, `f64::cos`,
`f64::tan`) are modelled by their exact real counterparts, and the
structural theorems about branching are additionally stated for an arbitrary
native function, since the branch logic of the Rust code does not depend on
which libm implementation is linked.  `isize` is 64-bit two's complement;
release-mode (wrapping) addition is used for `sum_list`.
-/

open Classical

namespace mathrs

/-- `EPSILON`: tolerance for floating-point comparisons (`1e-10`). -/
def EPSILON : ℝ := 1e-10

/-- `HALF_PI`: `std::f64::consts::FRAC_PI_2`, i.e. π/2. -/
noncomputable def HALF_PI : ℝ := Real.pi / 2

/-- `THREE_HALF_PI`: `3.0 * HALF_PI`, i.e. 3π/2. -/
noncomputable def THREE_HALF_PI : ℝ := 3 * HALF_PI

/-- Model of an `f64` value that may be a special IEEE-754 value: a finite
real, one of the two infinities, or NaN. -/
inductive FP where
  | fin (x : ℝ)
  | posInf
  | negInf
  | nan

/-- Reduce an integer into the 64-bit two's-complement (`isize`) range,
`[-2^63, 2^63)`, the effect of wrap-around on overflow. -/
def wrap64 (x : ℤ) : ℤ := (x + 2 ^ 63) % 2 ^ 64 - 2 ^ 63

/-- `sum_list`: `list.iter().sum()` over `isize`, each addition wrapping on
overflow (release-mode semantics). -/
def sum_list (list : List ℤ) : ℤ := list.foldl (fun acc x => wrap64 (acc + x)) 0

/-- `double`: `n * 2` over `isize` (wrapping on overflow). -/
def double (n : ℤ) : ℤ := wrap64 (n * 2)

/-- `double_list`: `list.iter().map(|x| x * 2).collect()`. -/
def double_list (list : List ℤ) : List ℤ := list.map (fun x => wrap64 (x * 2))

/-- `sqrt`: `n.sqrt()`, the IEEE-754 `f64::sqrt` on finite input idealized to
exact real arithmetic: NaN for negative input, the principal square root
otherwise. -/
noncomputable def sqrt (n : ℝ) : FP :=
  if n < 0 then FP.nan else FP.fin (Real.sqrt n)

/-- The shared degrees handling of `sin`, `cos` and `tan`: Rust
`n.to_radians()` (which computes `n * (π / 180)`) when `degrees` is set,
otherwise the input is used as radians unchanged. -/
noncomputable def toRadians (n : ℝ) (degrees : Bool) : ℝ :=
  if degrees then n * (Real.pi / 180) else n

/-- `sin`, parameterized by the native sine `S` (the platform `f64::sin`):
convert the angle, evaluate `S`, and snap a result whose absolute value is
below `EPSILON` to exactly `0.0`. -/
noncomputable def sinGen (S : ℝ → ℝ) (n : ℝ) (degrees : Bool) : ℝ :=
  if |S (toRadians n degrees)| < EPSILON then 0 else S (toRadians n degrees)

/-- `cos`, parameterized by the native cosine `C`: convert the angle,
evaluate `C`, and snap a near-zero result to exactly `0.0`. -/
noncomputable def cosGen (C : ℝ → ℝ) (n : ℝ) (degrees : Bool) : ℝ :=
  if |C (toRadians n degrees)| < EPSILON then 0 else C (toRadians n degrees)

/-- `tan`, parameterized by the native tangent `T`: convert the angle; if the
radian angle is within `EPSILON` of `HALF_PI` return positive infinity, if
within `EPSILON` of `THREE_HALF_PI` return negative infinity; otherwise
evaluate `T` and snap a near-zero result to exactly `0.0`. -/
noncomputable def tanGen (T : ℝ → ℝ) (n : ℝ) (degrees : Bool) : FP :=
  if |toRadians n degrees - HALF_PI| < EPSILON then FP.posInf
  else if |toRadians n degrees - THREE_HALF_PI| < EPSILON then FP.negInf
  else if |T (toRadians n degrees)| < EPSILON then FP.fin 0
  else FP.fin (T (toRadians n degrees))

/-- `sin` with the native sine taken to be the exact real sine. -/
noncomputable def sin (n : ℝ) (degrees : Bool) : ℝ := sinGen Real.sin n degrees

/-- `cos` with the native cosine taken to be the exact real cosine. -/
noncomputable def cos (n : ℝ) (degrees : Bool) : ℝ := cosGen Real.cos n degrees

/-- `tan` with the native tangent taken to be the exact real tangent. -/
noncomputable def tan (n : ℝ) (degrees : Bool) : FP := tanGen Real.tan n degrees

/-- The strict `n > 0.0` comparison used by `relu`, on possibly-special
values: both infinities compare as usual, and every comparison with NaN is
false. -/
def FP.gtZero : FP → Prop
  | FP.fin x => 0 < x
  | FP.posInf => True
  | FP.negInf => False
  | FP.nan => False

/-- `relu`: `if n > 0.0 { n } else { 0.0 }`. -/
noncomputable def relu (n : FP) : FP :=
  if n.gtZero then n else FP.fin 0

/-- `sigmoid`: `1.0 / (1.0 + (-n).exp())`, idealized to exact reals. -/
noncomputable def sigmoid (n : ℝ) : ℝ := 1 / (1 + Real.exp (-n))

/-- `softmax`: exponentiate every element and divide each exponential by the
sum of all exponentials, preserving order and length. -/
noncomputable def softmax (list : List ℝ) : List ℝ :=
  list.map (fun x => Real.exp x / (list.map (fun x => Real.exp x)).sum)

/-! Helper lemmas. -/

theorem wrap64_zero : wrap64 0 = 0 := by norm_num [wrap64]

theorem wrap64_add_left (a x : ℤ) : wrap64 (wrap64 a + x) = wrap64 (a + x) := by
  unfold wrap64
  omega

theorem wrap64_eq_self (a : ℤ) (h1 : -(2 ^ 63) ≤ a) (h2 : a < 2 ^ 63) :
    wrap64 a = a := by
  unfold wrap64
  omega

theorem sum_list_foldl (l : List ℤ) : ∀ a : ℤ,
    l.foldl (fun acc x => wrap64 (acc + x)) (wrap64 a) = wrap64 (a + l.sum) := by
  induction l with
  | nil => intro a; simp
  | cons x t ih =>
      intro a
      simp only [List.foldl_cons, List.sum_cons]
      rw [wrap64_add_left, ih (a + x), add_assoc]

theorem sum_map_div (l : List ℝ) (f : ℝ → ℝ) (c : ℝ) :
    (l.map (fun x => f x / c)).sum = (l.map f).sum / c := by
  induction l with
  | nil => simp
  | cons a t ih => simp [ih, add_div]

/-! Theorems for the claims. -/

/-- Claim C5 (confirmed): each trigonometric function called with
`degrees = true` agrees with the same function called with `degrees = false`
on the converted angle `n * π / 180`, and with `degrees = false` the input is
used as radians unchanged.  Stated for an arbitrary native sine `S`, cosine
`C` and tangent `T`. -/
theorem degrees_conversion (S C T : ℝ → ℝ) (n : ℝ) :
    sinGen S n true = sinGen S (n * Real.pi / 180) false ∧
    cosGen C n true = cosGen C (n * Real.pi / 180) false ∧
    tanGen T n true = tanGen T (n * Real.pi / 180) false ∧
    toRadians n false = n := by
  have h : toRadians n true = toRadians (n * Real.pi / 180) false := by
    simp [toRadians]; ring
  exact ⟨by simp [sinGen, h], by simp [cosGen, h], by simp [tanGen, h], rfl⟩

/-- Claim C2 (confirmed): each of `sin`, `cos` and `tan` evaluates the native
trigonometric function on the converted angle and, when the absolute value of
that native result is below `EPSILON = 1e-10`, returns exactly `0.0` instead
of it, otherwise the native result itself; for `tan` this applies exactly
when neither asymptote branch was taken. -/
theorem near_zero_snapping (S C T : ℝ → ℝ) (n : ℝ) (d : Bool) :
    (|S (toRadians n d)| < EPSILON → sinGen S n d = 0) ∧
    (EPSILON ≤ |S (toRadians n d)| → sinGen S n d = S (toRadians n d)) ∧
    (|C (toRadians n d)| < EPSILON → cosGen C n d = 0) ∧
    (EPSILON ≤ |C (toRadians n d)| → cosGen C n d = C (toRadians n d)) ∧
    (EPSILON ≤ |toRadians n d - HALF_PI| → EPSILON ≤ |toRadians n d - THREE_HALF_PI| →
      |T (toRadians n d)| < EPSILON → tanGen T n d = FP.fin 0) ∧
    (EPSILON ≤ |toRadians n d - HALF_PI| → EPSILON ≤ |toRadians n d - THREE_HALF_PI| →
      EPSILON ≤ |T (toRadians n d)| → tanGen T n d = FP.fin (T (toRadians n d))) := by
  refine ⟨fun h => ?_, fun h => ?_, fun h => ?_, fun h => ?_,
    fun h1 h2 h3 => ?_, fun h1 h2 h3 => ?_⟩
  · simp only [sinGen]; rw [if_pos h]
  · simp only [sinGen]; rw [if_neg (not_lt.mpr h)]
  · simp only [cosGen]; rw [if_pos h]
  · simp only [cosGen]; rw [if_neg (not_lt.mpr h)]
  · simp only [tanGen]; rw [if_neg (not_lt.mpr h1), if_neg (not_lt.mpr h2), if_pos h3]
  · simp only [tanGen]
    rw [if_neg (not_lt.mpr h1), if_neg (not_lt.mpr h2), if_neg (not_lt.mpr h3)]

/-- Witness for claim C2 at concrete inputs: the native sine at angle `0` is
`0`, which is snapped to `0.0`; the native cosine at angle `0` is `1`, which
is returned unchanged. -/
theorem near_zero_snapping_witness :
    sinGen Real.sin 0 false = 0 ∧
    cosGen Real.cos 0 false = Real.cos (toRadians 0 false) :=
  ⟨(near_zero_snapping Real.sin Real.cos Real.tan 0 false).1
      (by norm_num [toRadians, EPSILON]),
   (near_zero_snapping Real.sin Real.cos Real.tan 0 false).2.2.2.1
      (by norm_num [toRadians, EPSILON])⟩

/-- Claim C8 (confirmed): `sqrt` is total; it returns NaN for negative input,
`0.0` for input `0.0`, and the principal (non-negative) square root for every
non-negative input. -/
theorem sqrt_spec (n : ℝ) :
    (n < 0 → sqrt n = FP.nan) ∧
    sqrt 0 = FP.fin 0 ∧
    (0 ≤ n → sqrt n = FP.fin (Real.sqrt n) ∧
      0 ≤ Real.sqrt n ∧ Real.sqrt n * Real.sqrt n = n) := by
  refine ⟨fun h => ?_, ?_, fun h => ⟨?_, Real.sqrt_nonneg n, Real.mul_self_sqrt h⟩⟩
  · simp only [sqrt]; rw [if_pos h]
  · simp [sqrt]
  · simp only [sqrt]; rw [if_neg (not_lt.mpr h)]

/-- Witness for claim C8 at concrete inputs `-1`, `0` and `4`. -/
theorem sqrt_spec_witness :
    sqrt (-1) = FP.nan ∧ sqrt 4 = FP.fin (Real.sqrt 4) ∧
      0 ≤ Real.sqrt 4 ∧ Real.sqrt 4 * Real.sqrt 4 = 4 :=
  ⟨(sqrt_spec (-1)).1 (by norm_num),
   ((sqrt_spec 4).2.2 (by norm_num)).1,
   ((sqrt_spec 4).2.2 (by norm_num)).2.1,
   ((sqrt_spec 4).2.2 (by norm_num)).2.2⟩

/-- Claim C9 (confirmed): `sigmoid 0 = 0.5`, and for every input `n` the sum
`sigmoid n + sigmoid (-n)` equals `1.0` within tolerance `1e-10` (in the
exact-real model it equals `1` on the nose). -/
theorem sigmoid_spec :
    sigmoid 0 = 0.5 ∧ ∀ n : ℝ, |sigmoid n + sigmoid (-n) - 1| ≤ 1e-10 := by
  have key : ∀ n : ℝ, sigmoid n + sigmoid (-n) = 1 := by
    intro n
    have hab : Real.exp (-n) * Real.exp n = 1 := by
      rw [← Real.exp_add]; simp
    have h1 : (0:ℝ) < 1 + Real.exp (-n) := by positivity
    have h2 : (0:ℝ) < 1 + Real.exp n := by positivity
    simp only [sigmoid, neg_neg]
    field_simp
    nlinarith [hab]
  constructor
  · simp [sigmoid]
    norm_num
  · intro n
    rw [key n]
    simp
    norm_num

/-- Claim C1 counterexample: the radian angle `5π/2` is congruent to `π/2`
modulo `2π` with distance `0 < EPSILON`, yet `tan` does not return positive
infinity there: the asymptote check compares the angle against `π/2` and
`3π/2` themselves, with no reduction modulo `2π`, so this angle falls through
to the native-tangent branch, which produces a finite value. -/
theorem tan_mod_two_pi_counterexample :
    |5 * Real.pi / 2 - (HALF_PI + 2 * Real.pi)| < EPSILON ∧
    tan (5 * Real.pi / 2) false ≠ FP.posInf := by
  have hpi : (3:ℝ) < Real.pi := Real.pi_gt_three
  have hE : EPSILON = 1e-10 := rfl
  constructor
  · have e : 5 * Real.pi / 2 - (HALF_PI + 2 * Real.pi) = 0 := by
      unfold HALF_PI; ring
    rw [e, abs_zero, hE]; norm_num
  · have hr : toRadians (5 * Real.pi / 2) false = 5 * Real.pi / 2 := rfl
    have h1 : ¬ |toRadians (5 * Real.pi / 2) false - HALF_PI| < EPSILON := by
      have e : toRadians (5 * Real.pi / 2) false - HALF_PI = 2 * Real.pi := by
        rw [hr]; unfold HALF_PI; ring
      rw [not_lt, e, abs_of_pos (by linarith), hE]; linarith
    have h2 : ¬ |toRadians (5 * Real.pi / 2) false - THREE_HALF_PI| < EPSILON := by
      have e : toRadians (5 * Real.pi / 2) false - THREE_HALF_PI = Real.pi := by
        rw [hr]; unfold THREE_HALF_PI HALF_PI; ring
      rw [not_lt, e, abs_of_pos (by linarith), hE]; linarith
    show tanGen Real.tan (5 * Real.pi / 2) false ≠ FP.posInf
    simp only [tanGen]
    rw [if_neg h1, if_neg h2]
    split
    · exact fun hc => FP.noConfusion hc
    · exact fun hc => FP.noConfusion hc

/-- Claim C1 amended: `tan` returns positive infinity exactly when the radian
angle is within `EPSILON` of the point `π/2` itself, and negative infinity
when within `EPSILON` of the point `3π/2` itself (no reduction modulo `2π`
is performed); these checks precede the native tangent evaluation, so the
result there is independent of the native tangent `T`. -/
theorem tan_asymptote_exact (T : ℝ → ℝ) (n : ℝ) (d : Bool) :
    (|toRadians n d - HALF_PI| < EPSILON → tanGen T n d = FP.posInf) ∧
    (|toRadians n d - THREE_HALF_PI| < EPSILON → tanGen T n d = FP.negInf) := by
  have hpi : (3:ℝ) < Real.pi := Real.pi_gt_three
  have hE : EPSILON = 1e-10 := rfl
  constructor
  · intro h
    simp only [tanGen]
    rw [if_pos h]
  · intro h
    have hne : ¬ |toRadians n d - HALF_PI| < EPSILON := by
      rw [not_lt]
      have e : toRadians n d - HALF_PI =
          (toRadians n d - THREE_HALF_PI) + Real.pi := by
        unfold THREE_HALF_PI HALF_PI; ring
      have tri : |Real.pi| ≤
          |toRadians n d - THREE_HALF_PI + Real.pi| +
            |toRadians n d - THREE_HALF_PI| := by
        have e2 : Real.pi =
            (toRadians n d - THREE_HALF_PI + Real.pi) +
              (-(toRadians n d - THREE_HALF_PI)) := by ring
        calc |Real.pi| =
            |(toRadians n d - THREE_HALF_PI + Real.pi) +
              (-(toRadians n d - THREE_HALF_PI))| := by rw [← e2]
          _ ≤ |toRadians n d - THREE_HALF_PI + Real.pi| +
              |-(toRadians n d - THREE_HALF_PI)| := abs_add _ _
          _ = _ := by rw [abs_neg]
      rw [e]
      rw [abs_of_pos Real.pi_pos] at tri
      rw [hE] at h ⊢
      linarith
    simp only [tanGen]
    rw [if_neg hne, if_pos h]

/-- Witness for the amended claim C1 at the concrete angles `π/2` and `3π/2`
in radians mode, with the native tangent instantiated to the real tangent. -/
theorem tan_asymptote_exact_witness :
    tanGen Real.tan HALF_PI false = FP.posInf ∧
    tanGen Real.tan THREE_HALF_PI false = FP.negInf :=
  ⟨(tan_asymptote_exact Real.tan HALF_PI false).1
      (by norm_num [toRadians, EPSILON]),
   (tan_asymptote_exact Real.tan THREE_HALF_PI false).2
      (by norm_num [toRadians, EPSILON])⟩

/-- Claim C4 counterexample: for the input `[isize::MAX, 1]` the exact sum
`2^63` exceeds the representable `isize` range, yet `sum_list` silently wraps
to `-2^63` and returns it; no `Overflow` error exists anywhere in the call. -/
theorem sum_list_overflow_counterexample :
    sum_list [9223372036854775807, 1] = -9223372036854775808 ∧
    sum_list [9223372036854775807, 1] ≠ ([9223372036854775807, 1] : List ℤ).sum := by
  have h : sum_list [9223372036854775807, 1] = -9223372036854775808 := by
    norm_num [sum_list, wrap64]
  refine ⟨h, ?_⟩
  rw [h]
  norm_num

/-- Claim C4 amended: `sum_list` of the empty list is `0`; in general the
result is the exact arithmetic sum wrapped into the signed 64-bit range
(silent two's-complement wrap-around, with no `Overflow` error); in
particular, whenever the exact sum lies within the `isize` range the result
is the exact sum. -/
theorem sum_list_wrap_spec (l : List ℤ) :
    sum_list [] = 0 ∧
    sum_list l = wrap64 l.sum ∧
    (-(2 ^ 63) ≤ l.sum → l.sum < 2 ^ 63 → sum_list l = l.sum) := by
  have hgen : sum_list l = wrap64 l.sum := by
    have h0 : (0:ℤ) = wrap64 0 := wrap64_zero.symm
    calc sum_list l = l.foldl (fun acc x => wrap64 (acc + x)) (wrap64 0) := by
          rw [sum_list, ← h0]
      _ = wrap64 (0 + l.sum) := sum_list_foldl l 0
      _ = wrap64 l.sum := by rw [zero_add]
  exact ⟨rfl, hgen, fun h1 h2 => by rw [hgen, wrap64_eq_self l.sum h1 h2]⟩

/-- Witness for the amended claim C4: on `[1, 2, 3]` the exact sum `6` is in
range and is returned exactly. -/
theorem sum_list_wrap_spec_witness :
    sum_list [1, 2, 3] = ([1, 2, 3] : List ℤ).sum :=
  (sum_list_wrap_spec [1, 2, 3]).2.2 (by norm_num) (by norm_num)

/-- Claim C10 (confirmed): `relu` returns its input whenever that input
compares strictly greater than `0.0`, and exactly `0.0` whenever it does not;
in particular `relu NaN = 0.0` (a comparison with NaN is false), `relu` never
returns NaN, never returns negative infinity, and every finite value it
returns is non-negative. -/
theorem relu_spec :
    (∀ n : FP, (n.gtZero → relu n = n) ∧ (¬ n.gtZero → relu n = FP.fin 0)) ∧
    relu FP.nan = FP.fin 0 ∧
    (∀ n : FP, relu n ≠ FP.nan) ∧
    (∀ n : FP, relu n ≠ FP.negInf) ∧
    (∀ n : FP, ∀ x : ℝ, relu n = FP.fin x → 0 ≤ x) := by
  have hcase : ∀ n : FP, (n.gtZero → relu n = n) ∧ (¬ n.gtZero → relu n = FP.fin 0) := by
    intro n
    exact ⟨fun h => by simp [relu, h], fun h => by simp [relu, h]⟩
  have hor : ∀ n : FP, (n.gtZero ∧ relu n = n) ∨ relu n = FP.fin 0 := by
    intro n
    by_cases h : n.gtZero
    · exact Or.inl ⟨h, (hcase n).1 h⟩
    · exact Or.inr ((hcase n).2 h)
  refine ⟨hcase, by simp [relu, FP.gtZero], ?_, ?_, ?_⟩
  · intro n
    rcases hor n with ⟨hgt, heq⟩ | heq <;> rw [heq]
    · intro hc
      rw [hc] at hgt
      exact hgt
    · exact fun hc => FP.noConfusion hc
  · intro n
    rcases hor n with ⟨hgt, heq⟩ | heq <;> rw [heq]
    · intro hc
      rw [hc] at hgt
      exact hgt
    · exact fun hc => FP.noConfusion hc
  · intro n x h
    rcases hor n with ⟨hgt, heq⟩ | heq
    · rw [heq] at h
      rw [h] at hgt
      exact le_of_lt hgt
    · rw [heq] at h
      have : (0:ℝ) = x := by
        injection h
      linarith

/-- Witness for claim C10: `relu` of the strictly positive finite value `1`
returns that input itself; `relu` of `NaN` and of the finite value `-1` both
yield exactly `0.0`, a non-negative finite value. -/
theorem relu_spec_witness :
    relu (FP.fin 1) = FP.fin 1 ∧ relu FP.nan = FP.fin 0 ∧ (0:ℝ) ≤ 0 :=
  ⟨(relu_spec.1 (FP.fin 1)).1 (by norm_num [FP.gtZero]),
   relu_spec.2.1,
   relu_spec.2.2.2.2 (FP.fin (-1)) 0 (by norm_num [relu, FP.gtZero])⟩

/-- Claim C3 counterexample: on the empty input the exponential sum is `0.0`,
but `softmax` silently returns the ordinary empty list — the element-wise map
performs no division at all (the output has length `0`), and the function's
return type carries no error, so neither an `EmptyInputError` nor a NaN-filled
result is produced. -/
theorem softmax_empty_counterexample :
    (([] : List ℝ).map (fun x => Real.exp x)).sum = 0 ∧
    softmax ([] : List ℝ) = [] ∧
    (softmax ([] : List ℝ)).length = 0 := by
  refine ⟨by simp, by simp [softmax], by simp [softmax]⟩

/-- Claim C3 amended: `softmax` applied to the empty sequence computes the
exponential sum `0.0`, performs no division (there is no element to divide),
and silently returns the empty sequence as an ordinary value; no error is
raised and no NaN is produced. -/
theorem softmax_empty_behavior :
    softmax ([] : List ℝ) =
      ([] : List ℝ).map
        (fun x => Real.exp x / (([] : List ℝ).map (fun x => Real.exp x)).sum) ∧
    (([] : List ℝ).map (fun x => Real.exp x)).sum = 0 ∧
    softmax ([] : List ℝ) = List.nil := by
  refine ⟨rfl, by simp, by simp [softmax]⟩

/-- Claim C6 (confirmed): `softmax` preserves length and order: the element
at every position `i` of the output is `e^(v[i])` divided by the sum of the
exponentials of all elements of `v`. -/
theorem softmax_formula (v : List ℝ) (i : ℕ) (x : ℝ) (h : v[i]? = some x) :
    (softmax v).length = v.length ∧
    (softmax v)[i]? =
      some (Real.exp x / (v.map (fun y => Real.exp y)).sum) := by
  constructor
  · simp [softmax]
  · rw [softmax, List.getElem?_map, h]
    rfl

/-- Witness for claim C6 on the concrete input `[0, 1]` at position `1`. -/
theorem softmax_formula_witness :
    (softmax [0, 1]).length = ([0, 1] : List ℝ).length ∧
    (softmax [0, 1])[1]? =
      some (Real.exp 1 / (([0, 1] : List ℝ).map (fun y => Real.exp y)).sum) :=
  softmax_formula [0, 1] 1 1 (by simp)

/-- Claim C7 counterexample: for the singleton input `[0.0]` softmax returns
`[1.0]` (`e^0 / e^0 = 1` exactly), and its single element does not lie
strictly within the open interval `(0, 1)`. -/
theorem softmax_singleton_counterexample :
    softmax [0] = [1] ∧ ¬ ((1:ℝ) ∈ Set.Ioo (0:ℝ) 1) := by
  constructor
  · simp [softmax]
  · simp

/-- Claim C7 amended: for every non-empty input the elements of the softmax
output sum to `1.0` within tolerance `1e-6` (exactly `1` in the exact-real
model), and every element lies in the half-open interval `(0, 1]` (the upper
end is attained exactly by singleton inputs). -/
theorem softmax_sum_bounds (v : List ℝ) (h : v ≠ []) :
    |(softmax v).sum - 1| ≤ 1e-6 ∧
    ∀ y ∈ softmax v, 0 < y ∧ y ≤ 1 := by
  have hpos : 0 < (v.map (fun x => Real.exp x)).sum := by
    apply List.sum_pos
    · intro a ha
      obtain ⟨x, _, rfl⟩ := List.mem_map.mp ha
      exact Real.exp_pos x
    · simpa using h
  constructor
  · have hsum : (softmax v).sum = 1 := by
      rw [softmax, sum_map_div, div_self (ne_of_gt hpos)]
    rw [hsum]
    norm_num
  · intro y hy
    rw [softmax] at hy
    obtain ⟨x, hx, rfl⟩ := List.mem_map.mp hy
    refine ⟨div_pos (Real.exp_pos x) hpos, ?_⟩
    rw [div_le_one hpos]
    apply List.single_le_sum
    · intro a ha
      obtain ⟨z, _, rfl⟩ := List.mem_map.mp ha
      exact le_of_lt (Real.exp_pos z)
    · exact List.mem_map_of_mem _ hx

/-- Witness for the amended claim C7 on the concrete non-empty input
`[0, 1]`. -/
theorem softmax_sum_bounds_witness :
    |(softmax [(0:ℝ), 1]).sum - 1| ≤ 1e-6 ∧
    ∀ y ∈ softmax [(0:ℝ), 1], 0 < y ∧ y ≤ 1 :=
  softmax_sum_bounds [0, 1] (by simp)

end mathrs
